import Mathlib

/-!
Verification of the continuous OHLCV backfill engine of the
AgenticDataScience repository.

The definitions below are a shallow embedding of the Python source in
`src/data/crypto_data_providers.py`, `src/data/data_model.py` and
`src/data/database_handler.py`:

* timestamps are exchange-native epoch milliseconds, modelled as `Int`
  (Python integers); the stored `timestamp` column is
  `datetime.fromtimestamp(ms / 1000, utc)`, an injective image of the
  millisecond value, so rows carry the millisecond value directly;
* prices travel through `Decimal(str(x))` unchanged and no claim inspects
  their arithmetic, so they are carried as opaque `Int` payloads;
* the SQLAlchemy session is modelled as the list of rows visible to
  queries (committed rows plus staged inserts — the session autoflushes,
  so `session.query(...)` sees pending `session.add`s), together with a
  separate `committed` snapshot recording what the store has durably
  accepted;
* the exchange gateway (`self.exchange.fetch_ohlcv`) is an oracle
  `Int → Except Unit (List Candle)`: a function of the requested `since`
  cursor that either returns a page or raises;
* `session.commit()` is an oracle `Nat → Bool` indexed by the number of
  commit calls made so far: `false` means that commit call raises;
* the Python truthiness test `if end_timestamp and ts >= end_timestamp`
  is modelled exactly: a bound of `0` is falsy and disables the check;
* the unbounded `while True:` loop is ran on fuel; exhausted fuel is the
  distinguished outcome `spin` (the loop is still running), never a
  normal return.
-/

set_option maxHeartbeats 1000000

namespace AgenticDataScience

/-- Timeframe enumeration from `data_model.TimeFrame`. -/
inductive TimeFrame where
  | m1 | m3 | m5 | m15 | m30
  | h1 | h2 | h4 | h6 | h8 | h12
  | d1 | d3 | w1 | mo1
deriving DecidableEq, Repr

/-- Exchange type enumeration from `data_model.ExchangeType`. -/
inductive ExchangeType where
  | binance | coinbase | kraken | kucoin | bybit | other
deriving DecidableEq, Repr

/-- One OHLCV candle as returned by the gateway: `[ts, o, h, l, c, v]`.
The timestamp is epoch milliseconds. -/
structure Candle where
  ts : Int
  o : Int
  h : Int
  l : Int
  c : Int
  v : Int
deriving DecidableEq, Repr

/-- A row of the `ohlcv` table (`data_model.OHLCV`), restricted to the
columns the backfill engine writes. -/
structure OHLCVRow where
  exchange_id : Nat
  symbol_id : Nat
  timeframe : TimeFrame
  timestamp : Int
  open_price : Int
  high_price : Int
  low_price : Int
  close_price : Int
  volume : Int
deriving DecidableEq, Repr

/-- A row of the `exchanges` table (`data_model.Exchange`), restricted to
the columns the providers read or write. -/
structure ExchangeRow where
  id : Nat
  name : String
  exchange_type : ExchangeType
  timezone_name : String
deriving DecidableEq, Repr

/-- The nested `limits`/`precision` entries of a ccxt market dict that
`get_or_create_symbol` copies into a new `Symbol` row. -/
structure SymbolInfo where
  min_amount : Option Int
  max_amount : Option Int
  min_price : Option Int
  max_price : Option Int
  price_precision : Option Int
  amount_precision : Option Int
deriving DecidableEq, Repr

/-- A row of the `symbols` table (`data_model.Symbol`), restricted to the
columns the providers read or write. -/
structure SymbolRow where
  id : Nat
  exchange_id : Nat
  symbol : String
  base_currency : String
  quote_currency : String
  is_active : Bool
  min_order_size : Option Int
  max_order_size : Option Int
  min_price : Option Int
  max_price : Option Int
  price_precision : Option Int
  quantity_precision : Option Int
deriving DecidableEq, Repr

/-- One entry of `self.exchange.fetch_markets()` as consumed by
`fetch_and_store_markets`. -/
structure Market where
  symbol : String
  base : String
  quote : String
  active : Bool
  info : SymbolInfo
deriving DecidableEq, Repr

/-- Embedding of `CCXTDataProvider._get_exchange_id`: first `exchanges`
row whose `name` matches, or `None`. -/
def _get_exchange_id (exchanges : List ExchangeRow) (name : String) : Option Nat :=
  (exchanges.find? fun e => decide (e.name = name)).map (·.id)

/-- Embedding of `CCXTDataProvider._get_db_symbol`: resolve the exchange
id, then the first `symbols` row matching `(exchange_id, symbol)`.  If the
exchange id is `None` the SQL filter `exchange_id IS NULL` matches no row
(the column is non-nullable). -/
def _get_db_symbol (exchanges : List ExchangeRow) (symbols : List SymbolRow)
    (exchangeName : String) (symbol : String) : Option SymbolRow :=
  match _get_exchange_id exchanges exchangeName with
  | none => none
  | some eid => symbols.find? fun s => decide (s.exchange_id = eid ∧ s.symbol = symbol)

/-- Embedding of `CryptoDataProvider.get_or_create_exchange`.  `freshId`
stands for the UUID a newly created row would receive.  Returns the row
together with the resulting `exchanges` table. -/
def get_or_create_exchange (exchanges : List ExchangeRow) (freshId : Nat)
    (name : String) (ty : ExchangeType) : ExchangeRow × List ExchangeRow :=
  match exchanges.find? fun e => decide (e.name = name) with
  | some e => (e, exchanges)
  | none =>
    let row : ExchangeRow :=
      { id := freshId, name := name, exchange_type := ty, timezone_name := "UTC" }
    (row, exchanges ++ [row])

/-- Embedding of `CryptoDataProvider.get_or_create_symbol`.  A base or
quote currency string longer than 10 characters makes the call return
`None` without touching the table; otherwise the existing row for
`(exchange_id, symbol)` is returned, or a new one is created (copying the
optional market limits) and appended. -/
def get_or_create_symbol (symbols : List SymbolRow) (freshId : Nat)
    (exchange_id : Nat) (symbol base quote : String)
    (symbol_info : Option SymbolInfo) : Option SymbolRow × List SymbolRow :=
  if base.length > 10 ∨ quote.length > 10 then
    (none, symbols)
  else
    match symbols.find? fun s => decide (s.exchange_id = exchange_id ∧ s.symbol = symbol) with
    | some s => (some s, symbols)
    | none =>
      let row : SymbolRow :=
        { id := freshId
          exchange_id := exchange_id
          symbol := symbol
          base_currency := base
          quote_currency := quote
          is_active := true
          min_order_size := symbol_info.bind (·.min_amount)
          max_order_size := symbol_info.bind (·.max_amount)
          min_price := symbol_info.bind (·.min_price)
          max_price := symbol_info.bind (·.max_price)
          price_precision := symbol_info.bind (·.price_precision)
          quantity_precision := symbol_info.bind (·.amount_precision) }
      (some row, symbols ++ [row])

/-- The `for market in markets` loop of `fetch_and_store_markets`:
inactive markets are skipped outright; for active markets
`get_or_create_symbol` is called and the counter increments only when it
returns a row.  `fresh` numbers the ids handed to created rows. -/
def fetch_and_store_markets_loop (exchange_id : Nat) :
    List Market → List SymbolRow → Nat → Nat → Nat × List SymbolRow
  | [], symbols, count, _ => (count, symbols)
  | m :: rest, symbols, count, fresh =>
    if m.active then
      match get_or_create_symbol symbols fresh exchange_id m.symbol m.base m.quote
          (some m.info) with
      | (some _, symbols2) =>
        fetch_and_store_markets_loop exchange_id rest symbols2 (count + 1) (fresh + 1)
      | (none, symbols2) =>
        fetch_and_store_markets_loop exchange_id rest symbols2 count (fresh + 1)
    else
      fetch_and_store_markets_loop exchange_id rest symbols count fresh

/-- Embedding of `CCXTDataProvider.fetch_and_store_markets`: resolve or
create the exchange row, then run the market loop.  Returns the
symbols-processed count, the resulting symbols table and the resulting
exchanges table. -/
def fetch_and_store_markets (exchanges : List ExchangeRow) (symbols : List SymbolRow)
    (markets : List Market) (exchangeName : String) (ty : ExchangeType)
    (freshExchangeId freshSymbolId : Nat) : Nat × List SymbolRow × List ExchangeRow :=
  let resolved := get_or_create_exchange exchanges freshExchangeId exchangeName ty
  let looped := fetch_and_store_markets_loop resolved.1.id markets symbols 0 freshSymbolId
  (looped.1, looped.2, resolved.2)

/-- Parameters of one `continuous_backfill_ohlcv` loop, fixed for the whole
run: the gateway fetch oracle (a function of the `since` cursor), the
commit oracle (indexed by the number of commit calls so far), the parsed
end bound (as Python left it: `None` or an integer), the resolved
exchange/symbol ids, the timeframe, the commit interval (10 in the
source), and the wall-clock completion time used when nothing was
observed. -/
structure LoopCfg where
  fetch : Int → Except Unit (List Candle)
  commitOk : Nat → Bool
  endTs : Option Int
  eid : Nat
  sid : Nat
  tf : TimeFrame
  commitEvery : Nat
  nowMs : Int

/-- Engine-local loop state: the cursor, the session view of the `ohlcv`
table (committed rows plus staged inserts), `total_records`,
`all_timestamps`, `batch_count`, the number of commit calls made, and the
durably committed rows. -/
structure LoopState where
  since : Int
  store : List OHLCVRow
  total_records : Nat
  all_timestamps : List Int
  batch_count : Nat
  commit_attempts : Nat
  committed : List OHLCVRow
deriving DecidableEq, Repr

/-- The Python guard `end_timestamp and ts >= end_timestamp`: the bound is
active only when it is not `None` and not the falsy integer `0`. -/
def endActive : Option Int → Int → Bool
  | none, _ => false
  | some e, ts => e != 0 && decide (e ≤ ts)

/-- The per-candle existence check
`session.query(OHLCV).filter_by(symbol_id=…, timeframe=…, timestamp=…)`
(the filter does not mention `exchange_id`). -/
def existsOHLCV (store : List OHLCVRow) (sid : Nat) (tf : TimeFrame) (ts : Int) : Bool :=
  store.any fun r => decide (r.symbol_id = sid ∧ r.timeframe = tf ∧ r.timestamp = ts)

/-- The `OHLCV(...)` record constructed for a fresh candle. -/
def mkRow (cfg : LoopCfg) (c : Candle) : OHLCVRow :=
  { exchange_id := cfg.eid
    symbol_id := cfg.sid
    timeframe := cfg.tf
    timestamp := c.ts
    open_price := c.o
    high_price := c.h
    low_price := c.l
    close_price := c.c
    volume := c.v }

/-- The `for ohlcv in candles` loop: stop at the first candle whose
timestamp reaches an active end bound (before its existence check),
otherwise look the candle up, stage it when absent, and record its
timestamp into `all_timestamps` either way.  Returns the session view, the
timestamp list and `batch_records`. -/
def processCandles (cfg : LoopCfg) :
    List Candle → List OHLCVRow → List Int → Nat → List OHLCVRow × List Int × Nat
  | [], store, obs, n => (store, obs, n)
  | c :: rest, store, obs, n =>
    if endActive cfg.endTs c.ts then
      (store, obs, n)
    else if existsOHLCV store cfg.sid cfg.tf c.ts then
      processCandles cfg rest store (obs ++ [c.ts]) n
    else
      processCandles cfg rest (store ++ [mkRow cfg c]) (obs ++ [c.ts]) (n + 1)

/-- Result of one iteration of the `while True:` loop: either the loop
continues with a new state, or a `break` was executed with the state at
that point. -/
inductive StepResult where
  | cont (s : LoopState)
  | brk (s : LoopState)
deriving Repr

/-- State right after a page was fetched and processed, before the
periodic-commit decision: the cursor moved to the full page's last
timestamp plus 1 ms (`since = last_timestamp + 1`, not a bound-truncated
position), the session holds the newly staged rows, `total_records` grew
by `batch_records`, and `batch_count` incremented. -/
def pageState (cfg : LoopCfg) (s : LoopState) (c0 : Candle) (rest : List Candle) : LoopState :=
  { since := (List.getLastD rest c0).ts + 1
    store := (processCandles cfg (c0 :: rest) s.store s.all_timestamps 0).1
    total_records := s.total_records + (processCandles cfg (c0 :: rest) s.store s.all_timestamps 0).2.2
    all_timestamps := (processCandles cfg (c0 :: rest) s.store s.all_timestamps 0).2.1
    batch_count := s.batch_count + 1
    commit_attempts := s.commit_attempts
    committed := s.committed }

/-- The periodic-commit decision after a processed page: every
`commitEvery`-th batch (`batch_count % 10 == 0` in the source) a commit is
attempted.  A raising commit lands in the same per-page `except` branch —
the cursor, already advanced past the page, has one day added, the staged
rows stay in the session, and the loop continues. -/
def afterPage (cfg : LoopCfg) (s : LoopState) (c0 : Candle) (rest : List Candle) : LoopState :=
  let s1 := pageState cfg s c0 rest
  if (s.batch_count + 1) % cfg.commitEvery == 0 then
    if cfg.commitOk s.commit_attempts then
      { s1 with commit_attempts := s.commit_attempts + 1, committed := s1.store }
    else
      { s1 with since := s1.since + 86400000, commit_attempts := s.commit_attempts + 1 }
  else
    s1

/-- One iteration of the `while True:` loop of
`continuous_backfill_ohlcv`.  A raising fetch lands in the
`except` branch (cursor skips one day, everything else kept).  An empty
page, or a first candle at an active end bound, breaks.  Otherwise the
page is processed and the periodic-commit decision runs. -/
def loopStep (cfg : LoopCfg) (s : LoopState) : StepResult :=
  match cfg.fetch s.since with
  | .error _ => .cont { s with since := s.since + 86400000 }
  | .ok [] => .brk s
  | .ok (c0 :: rest) =>
    if endActive cfg.endTs c0.ts then
      .brk s
    else
      .cont (afterPage cfg s c0 rest)

/-- The tuple `(total_records, actual_start, actual_end)` returned by a
completed run, together with the final engine state. -/
structure RunReport where
  total_records : Nat
  actual_start : Int
  actual_end : Int
  finalState : LoopState
deriving DecidableEq, Repr

/-- Outcome of a run: a normal return, an exception propagated to the
caller (carrying the durably committed rows, since `get_session` rolls the
session back), or exhausted fuel with the loop still running. -/
inductive Outcome where
  | ok (r : RunReport)
  | err (committed : List OHLCVRow)
  | spin (s : LoopState)
deriving DecidableEq, Repr

/-- Python `min(l)` with a default for the empty list (the code only calls
it on a non-empty list). -/
def listMinD (l : List Int) (d : Int) : Int :=
  match l with
  | [] => d
  | x :: xs => xs.foldl min x

/-- Python `max(l)` with a default for the empty list. -/
def listMaxD (l : List Int) (d : Int) : Int :=
  match l with
  | [] => d
  | x :: xs => xs.foldl max x

/-- Code after the loop breaks: the final `session.commit()` (a raising
final commit propagates through the outer handler, aborting the run with
the previously committed rows intact), then `actual_start`/`actual_end`
from `all_timestamps`, or the wall clock when it is empty. -/
def finishRun (cfg : LoopCfg) (s : LoopState) : Outcome :=
  if cfg.commitOk s.commit_attempts then
    Outcome.ok
      { total_records := s.total_records
        actual_start := listMinD s.all_timestamps cfg.nowMs
        actual_end := listMaxD s.all_timestamps cfg.nowMs
        finalState :=
          { s with commit_attempts := s.commit_attempts + 1, committed := s.store } }
  else
    Outcome.err s.committed

/-- The fueled `while True:` loop. -/
def runLoop (cfg : LoopCfg) : Nat → LoopState → Outcome
  | 0, s => .spin s
  | fuel + 1, s =>
    match loopStep cfg s with
    | .cont s2 => runLoop cfg fuel s2
    | .brk s2 => finishRun cfg s2

/-- The provider-level collaborators of `continuous_backfill_ohlcv`: the
gateway oracles, the wall clock, and the database tables used to resolve
the symbol. -/
structure BackfillEnv where
  fetch : Int → Except Unit (List Candle)
  commitOk : Nat → Bool
  nowMs : Int
  exchanges : List ExchangeRow
  symbols : List SymbolRow
  exchange_name : String

/-- Loop parameters of one `continuous_backfill_ohlcv` invocation: the
environment's oracles together with the resolved symbol ids and the
source's hard-coded commit interval of 10 batches. -/
def backfillCfg (env : BackfillEnv) (dbs : SymbolRow) (tf : TimeFrame)
    (endTs : Option Int) : LoopCfg :=
  { fetch := env.fetch
    commitOk := env.commitOk
    endTs := endTs
    eid := dbs.exchange_id
    sid := dbs.id
    tf := tf
    commitEvery := 10
    nowMs := env.nowMs }

/-- Loop state at entry: cursor at the parsed start, zero counters, and
the initial store both as session view and as durably committed rows. -/
def initState (since0 : Int) (store0 : List OHLCVRow) : LoopState :=
  { since := since0
    store := store0
    total_records := 0
    all_timestamps := []
    batch_count := 0
    commit_attempts := 0
    committed := store0 }

/-- Embedding of `CCXTDataProvider.continuous_backfill_ohlcv`: resolve the
symbol (on failure the raised `ValueError` propagates and `get_session`
rolls back, leaving the store untouched), then run the loop from the
parsed start cursor.  `since0` and `endTs` are the already-parsed
millisecond bounds (`end_date` absent gives `none`). -/
def continuous_backfill_ohlcv (env : BackfillEnv) (symbol : String) (tf : TimeFrame)
    (since0 : Int) (endTs : Option Int) (store0 : List OHLCVRow) (fuel : Nat) : Outcome :=
  match _get_db_symbol env.exchanges env.symbols env.exchange_name symbol with
  | none => .err store0
  | some dbs => runLoop (backfillCfg env dbs tf endTs) fuel (initState since0 store0)

/-- Total records of a normally returning run. -/
def runTotal : Outcome → Option Nat
  | .ok r => some r.total_records
  | _ => none

/-- Final session view (committed plus staged rows — all committed by the
final commit) of a normally returning run. -/
def runStore : Outcome → Option (List OHLCVRow)
  | .ok r => some r.finalState.store
  | _ => none

/-- Number of commit calls made by a normally returning run. -/
def runAttempts : Outcome → Option Nat
  | .ok r => some r.finalState.commit_attempts
  | _ => none

/-- Full report of a normally returning run. -/
def runReport : Outcome → Option RunReport
  | .ok r => some r
  | _ => none

/-- Whether the run raised to the caller. -/
def isErr : Outcome → Bool
  | .err _ => true
  | _ => false

/-- State after a continuing loop iteration. -/
def contState : StepResult → Option LoopState
  | .cont s => some s
  | .brk _ => none

/-- Cursor after a continuing loop iteration. -/
def contSince : StepResult → Option Int
  | .cont s => some s.since
  | .brk _ => none

/-- Timestamps of the candles of a page that the per-candle loop actually
processes: the prefix before the first candle at an active end bound. -/
def tsOf (cfg : LoopCfg) (cs : List Candle) : List Int :=
  (cs.takeWhile fun c => !endActive cfg.endTs c.ts).map (·.ts)

/-- The exact condition under which one loop iteration executes `break`:
the fetched page is empty, or its first candle sits at an active
(non-`None`, nonzero) end bound. -/
def brkCond (cfg : LoopCfg) (s : LoopState) : Prop :=
  match cfg.fetch s.since with
  | .error _ => False
  | .ok [] => True
  | .ok (c0 :: _) => endActive cfg.endTs c0.ts = true

/-- Bound-respect check: every row of `stored` was already present in
`store0` or has timestamp strictly below `e`. -/
def boundRespected (stored store0 : List OHLCVRow) (e : Int) : Bool :=
  stored.all fun row => decide (row ∈ store0) || decide (row.timestamp < e)

/-- Range-accuracy check on a report: with no observed timestamps both
range ends equal the wall clock, otherwise `actual_start` (`actual_end`)
is an observed timestamp and a lower (upper) bound of all of them. -/
def minmaxOk (r : RunReport) (nowMs : Int) : Bool :=
  if r.finalState.all_timestamps.isEmpty then
    decide (r.actual_start = nowMs) && decide (r.actual_end = nowMs)
  else
    decide (r.actual_start ∈ r.finalState.all_timestamps) &&
    r.finalState.all_timestamps.all (fun t => decide (r.actual_start ≤ t)) &&
    decide (r.actual_end ∈ r.finalState.all_timestamps) &&
    r.finalState.all_timestamps.all (fun t => decide (t ≤ r.actual_end))

/-- A gateway candle whose prices are irrelevant. -/
def pageCandle (t : Int) : Candle := ⟨t, 0, 0, 0, 0, 0⟩

/-- Deterministic gateway producing `k` consecutive one-candle pages (one
candle at each of the cursors `0, …, k-1`) and empty pages afterwards. -/
def gPages (k : Nat) : Int → Except Unit (List Candle) :=
  fun since => if since < (k : Int) then .ok [pageCandle since] else .ok []

/-- A one-row `exchanges` table entry used in concrete scenarios. -/
def oneExchange : ExchangeRow := ⟨0, "binance", .binance, "UTC"⟩

/-- A one-row `symbols` table entry used in concrete scenarios. -/
def oneSymbol : SymbolRow :=
  ⟨1, 0, "BTC/USDT", "BTC", "USDT", true, none, none, none, none, none, none⟩

/-- Concrete environment around `gPages k` with always-succeeding commits. -/
def envPages (k : Nat) : BackfillEnv :=
  { fetch := gPages k
    commitOk := fun _ => true
    nowMs := 0
    exchanges := [oneExchange]
    symbols := [oneSymbol]
    exchange_name := "binance" }

/-! ### Minimum/maximum helper lemmas -/

lemma foldl_min_choice (xs : List Int) (x : Int) :
    xs.foldl min x = x ∨ xs.foldl min x ∈ xs := by
  induction xs generalizing x with
  | nil => exact Or.inl rfl
  | cons y ys ih =>
    simp only [List.foldl_cons]
    rcases ih (min x y) with h | h
    · rcases min_choice x y with hm | hm
      · exact Or.inl (h.trans hm)
      · exact Or.inr (by rw [h, hm]; exact List.mem_cons_self _ _)
    · exact Or.inr (List.mem_cons_of_mem _ h)

lemma foldl_min_le (xs : List Int) (x : Int) :
    xs.foldl min x ≤ x ∧ ∀ t ∈ xs, xs.foldl min x ≤ t := by
  induction xs generalizing x with
  | nil => exact ⟨le_refl x, by intro t ht; cases ht⟩
  | cons y ys ih =>
    simp only [List.foldl_cons]
    obtain ⟨h1, h2⟩ := ih (min x y)
    refine ⟨h1.trans (min_le_left x y), ?_⟩
    intro t ht
    rcases List.mem_cons.mp ht with rfl | ht
    · exact h1.trans (min_le_right x t)
    · exact h2 t ht

lemma foldl_max_choice (xs : List Int) (x : Int) :
    xs.foldl max x = x ∨ xs.foldl max x ∈ xs := by
  induction xs generalizing x with
  | nil => exact Or.inl rfl
  | cons y ys ih =>
    simp only [List.foldl_cons]
    rcases ih (max x y) with h | h
    · rcases max_choice x y with hm | hm
      · exact Or.inl (h.trans hm)
      · exact Or.inr (by rw [h, hm]; exact List.mem_cons_self _ _)
    · exact Or.inr (List.mem_cons_of_mem _ h)

lemma le_foldl_max (xs : List Int) (x : Int) :
    x ≤ xs.foldl max x ∧ ∀ t ∈ xs, t ≤ xs.foldl max x := by
  induction xs generalizing x with
  | nil => exact ⟨le_refl x, by intro t ht; cases ht⟩
  | cons y ys ih =>
    simp only [List.foldl_cons]
    obtain ⟨h1, h2⟩ := ih (max x y)
    refine ⟨(le_max_left x y).trans h1, ?_⟩
    intro t ht
    rcases List.mem_cons.mp ht with rfl | ht
    · exact (le_max_right x t).trans h1
    · exact h2 t ht

lemma listMinD_mem (l : List Int) (d : Int) (h : l ≠ []) : listMinD l d ∈ l := by
  match l with
  | [] => exact absurd rfl h
  | x :: xs =>
    show xs.foldl min x ∈ x :: xs
    rcases foldl_min_choice xs x with h1 | h1
    · rw [h1]; exact List.mem_cons_self _ _
    · exact List.mem_cons_of_mem _ h1

lemma listMinD_le (l : List Int) (d : Int) : ∀ t ∈ l, listMinD l d ≤ t := by
  match l with
  | [] => intro t ht; cases ht
  | x :: xs =>
    intro t ht
    show xs.foldl min x ≤ t
    rcases List.mem_cons.mp ht with rfl | ht
    · exact (foldl_min_le xs t).1
    · exact (foldl_min_le xs x).2 t ht

lemma listMaxD_mem (l : List Int) (d : Int) (h : l ≠ []) : listMaxD l d ∈ l := by
  match l with
  | [] => exact absurd rfl h
  | x :: xs =>
    show xs.foldl max x ∈ x :: xs
    rcases foldl_max_choice xs x with h1 | h1
    · rw [h1]; exact List.mem_cons_self _ _
    · exact List.mem_cons_of_mem _ h1

lemma listMaxD_ge (l : List Int) (d : Int) : ∀ t ∈ l, t ≤ listMaxD l d := by
  match l with
  | [] => intro t ht; cases ht
  | x :: xs =>
    intro t ht
    show t ≤ xs.foldl max x
    rcases List.mem_cons.mp ht with rfl | ht
    · exact (le_foldl_max xs t).1
    · exact (le_foldl_max xs x).2 t ht

/-! ### Lemmas about the per-candle loop -/

lemma existsOHLCV_append_left {store : List OHLCVRow} (tl : List OHLCVRow)
    {sid : Nat} {tf : TimeFrame} {ts : Int}
    (h : existsOHLCV store sid tf ts = true) :
    existsOHLCV (store ++ tl) sid tf ts = true := by
  simp only [existsOHLCV, List.any_append, Bool.or_eq_true]
  exact Or.inl h

lemma existsOHLCV_self (cfg : LoopCfg) (store : List OHLCVRow) (c : Candle) :
    existsOHLCV (store ++ [mkRow cfg c]) cfg.sid cfg.tf c.ts = true := by
  simp [existsOHLCV, List.any_append, mkRow]

lemma processCandles_store_append (cfg : LoopCfg) (cs : List Candle) :
    ∀ store obs n, ∃ tl, (processCandles cfg cs store obs n).1 = store ++ tl := by
  induction cs with
  | nil => intro store obs n; exact ⟨[], by simp [processCandles]⟩
  | cons c rest ih =>
    intro store obs n
    cases he : endActive cfg.endTs c.ts with
    | true => exact ⟨[], by simp [processCandles, he]⟩
    | false =>
      cases hx : existsOHLCV store cfg.sid cfg.tf c.ts with
      | true => simpa [processCandles, he, hx] using ih store (obs ++ [c.ts]) n
      | false =>
        obtain ⟨tl, htl⟩ := ih (store ++ [mkRow cfg c]) (obs ++ [c.ts]) (n + 1)
        refine ⟨mkRow cfg c :: tl, ?_⟩
        simp only [processCandles, he, hx, Bool.false_eq_true, if_false]
        rw [htl, List.append_assoc]
        rfl

lemma processCandles_obs (cfg : LoopCfg) (cs : List Candle) :
    ∀ store obs n, (processCandles cfg cs store obs n).2.1 = obs ++ tsOf cfg cs := by
  induction cs with
  | nil => intro store obs n; simp [processCandles, tsOf]
  | cons c rest ih =>
    intro store obs n
    cases he : endActive cfg.endTs c.ts with
    | true => simp [processCandles, he, tsOf, List.takeWhile_cons]
    | false =>
      cases hx : existsOHLCV store cfg.sid cfg.tf c.ts with
      | true =>
        rw [show processCandles cfg (c :: rest) store obs n
              = processCandles cfg rest store (obs ++ [c.ts]) n from by
            simp [processCandles, he, hx]]
        rw [ih store (obs ++ [c.ts]) n]
        simp [tsOf, List.takeWhile_cons, he]
      | false =>
        rw [show processCandles cfg (c :: rest) store obs n
              = processCandles cfg rest (store ++ [mkRow cfg c]) (obs ++ [c.ts]) (n + 1) from by
            simp [processCandles, he, hx]]
        rw [ih (store ++ [mkRow cfg c]) (obs ++ [c.ts]) (n + 1)]
        simp [tsOf, List.takeWhile_cons, he]

lemma processCandles_keys (cfg : LoopCfg) (cs : List Candle) :
    ∀ store obs n c, c ∈ cs.takeWhile (fun c => !endActive cfg.endTs c.ts) →
      existsOHLCV (processCandles cfg cs store obs n).1 cfg.sid cfg.tf c.ts = true := by
  induction cs with
  | nil => intro store obs n c hc; simp at hc
  | cons c0 rest ih =>
    intro store obs n c hc
    cases he : endActive cfg.endTs c0.ts with
    | true => rw [List.takeWhile_cons] at hc; simp [he] at hc
    | false =>
      rw [List.takeWhile_cons] at hc
      simp only [he, Bool.not_false, if_true] at hc
      cases hx : existsOHLCV store cfg.sid cfg.tf c0.ts with
      | true =>
        rw [show processCandles cfg (c0 :: rest) store obs n
              = processCandles cfg rest store (obs ++ [c0.ts]) n from by
            simp [processCandles, he, hx]]
        rcases List.mem_cons.mp hc with hceq | hc2
        · rw [hceq]
          obtain ⟨tl, htl⟩ := processCandles_store_append cfg rest store (obs ++ [c0.ts]) n
          rw [htl]
          exact existsOHLCV_append_left tl hx
        · exact ih store (obs ++ [c0.ts]) n c hc2
      | false =>
        rw [show processCandles cfg (c0 :: rest) store obs n
              = processCandles cfg rest (store ++ [mkRow cfg c0]) (obs ++ [c0.ts]) (n + 1) from by
            simp [processCandles, he, hx]]
        rcases List.mem_cons.mp hc with hceq | hc2
        · rw [hceq]
          obtain ⟨tl, htl⟩ :=
            processCandles_store_append cfg rest (store ++ [mkRow cfg c0]) (obs ++ [c0.ts]) (n + 1)
          rw [htl]
          exact existsOHLCV_append_left tl (existsOHLCV_self cfg store c0)
        · exact ih (store ++ [mkRow cfg c0]) (obs ++ [c0.ts]) (n + 1) c hc2

lemma processCandles_fixed (cfg : LoopCfg) (cs : List Candle) :
    ∀ U obs n,
      (∀ c ∈ cs.takeWhile (fun c => !endActive cfg.endTs c.ts),
        existsOHLCV U cfg.sid cfg.tf c.ts = true) →
      processCandles cfg cs U obs n = (U, obs ++ tsOf cfg cs, n) := by
  induction cs with
  | nil => intro U obs n _; simp [processCandles, tsOf]
  | cons c0 rest ih =>
    intro U obs n h
    cases he : endActive cfg.endTs c0.ts with
    | true => simp [processCandles, he, tsOf, List.takeWhile_cons]
    | false =>
      have hc0 : existsOHLCV U cfg.sid cfg.tf c0.ts = true := by
        apply h
        rw [List.takeWhile_cons]
        simp [he]
      have hrest : ∀ c ∈ rest.takeWhile (fun c => !endActive cfg.endTs c.ts),
          existsOHLCV U cfg.sid cfg.tf c.ts = true := by
        intro c hc
        apply h
        rw [List.takeWhile_cons]
        simp only [he, Bool.not_false, if_true]
        exact List.mem_cons_of_mem _ hc
      rw [show processCandles cfg (c0 :: rest) U obs n
            = processCandles cfg rest U (obs ++ [c0.ts]) n from by
          simp [processCandles, he, hc0]]
      rw [ih U (obs ++ [c0.ts]) n hrest]
      simp [tsOf, List.takeWhile_cons, he]

lemma processCandles_prov (cfg : LoopCfg) (e : Int) (hcfg : cfg.endTs = some e)
    (he : e ≠ 0) (cs : List Candle) :
    ∀ store obs n row, row ∈ (processCandles cfg cs store obs n).1 →
      row ∈ store ∨ row.timestamp < e := by
  induction cs with
  | nil =>
    intro store obs n row h
    simp only [processCandles] at h
    exact Or.inl h
  | cons c rest ih =>
    intro store obs n row h
    cases hea : endActive cfg.endTs c.ts with
    | true =>
      simp only [processCandles, hea, if_true] at h
      exact Or.inl h
    | false =>
      cases hx : existsOHLCV store cfg.sid cfg.tf c.ts with
      | true =>
        rw [show processCandles cfg (c :: rest) store obs n
              = processCandles cfg rest store (obs ++ [c.ts]) n from by
            simp [processCandles, hea, hx]] at h
        exact ih store (obs ++ [c.ts]) n row h
      | false =>
        rw [show processCandles cfg (c :: rest) store obs n
              = processCandles cfg rest (store ++ [mkRow cfg c]) (obs ++ [c.ts]) (n + 1) from by
            simp [processCandles, hea, hx]] at h
        rcases ih (store ++ [mkRow cfg c]) (obs ++ [c.ts]) (n + 1) row h with hmem | hlt
        · rcases List.mem_append.mp hmem with h1 | h2
          · exact Or.inl h1
          · right
            have hrow : row = mkRow cfg c := by simpa using h2
            have hfalse : endActive (some e) c.ts = false := hcfg ▸ hea
            simp only [endActive] at hfalse
            have hne : (e != 0) = true := by simpa [bne_iff_ne] using he
            rw [hne, Bool.true_and] at hfalse
            have hnle : ¬ e ≤ c.ts := of_decide_eq_false hfalse
            rw [hrow]
            exact not_le.mp hnle
        · exact Or.inr hlt

/-! ### Lemmas about one loop iteration -/

lemma pageState_since (cfg : LoopCfg) (s : LoopState) (c0 : Candle) (rest : List Candle) :
    (pageState cfg s c0 rest).since = (List.getLastD rest c0).ts + 1 := rfl

lemma afterPage_store (cfg : LoopCfg) (s : LoopState) (c0 : Candle) (rest : List Candle) :
    (afterPage cfg s c0 rest).store
      = (processCandles cfg (c0 :: rest) s.store s.all_timestamps 0).1 := by
  unfold afterPage pageState
  split
  · split <;> rfl
  · rfl

lemma afterPage_obs (cfg : LoopCfg) (s : LoopState) (c0 : Candle) (rest : List Candle) :
    (afterPage cfg s c0 rest).all_timestamps
      = (processCandles cfg (c0 :: rest) s.store s.all_timestamps 0).2.1 := by
  unfold afterPage pageState
  split
  · split <;> rfl
  · rfl

lemma afterPage_total (cfg : LoopCfg) (s : LoopState) (c0 : Candle) (rest : List Candle) :
    (afterPage cfg s c0 rest).total_records
      = s.total_records + (processCandles cfg (c0 :: rest) s.store s.all_timestamps 0).2.2 := by
  unfold afterPage pageState
  split
  · split <;> rfl
  · rfl

lemma afterPage_batch (cfg : LoopCfg) (s : LoopState) (c0 : Candle) (rest : List Candle) :
    (afterPage cfg s c0 rest).batch_count = s.batch_count + 1 := by
  unfold afterPage pageState
  split
  · split <;> rfl
  · rfl

lemma afterPage_attempts (cfg : LoopCfg) (s : LoopState) (c0 : Candle) (rest : List Candle) :
    (afterPage cfg s c0 rest).commit_attempts
      = if (s.batch_count + 1) % cfg.commitEvery == 0 then s.commit_attempts + 1
        else s.commit_attempts := by
  unfold afterPage pageState
  split
  · split <;> simp_all
  · simp_all

lemma afterPage_since_commit_ok (cfg : LoopCfg) (s : LoopState) (c0 : Candle)
    (rest : List Candle)
    (h : ((s.batch_count + 1) % cfg.commitEvery == 0) = false
        ∨ cfg.commitOk s.commit_attempts = true) :
    (afterPage cfg s c0 rest).since = (List.getLastD rest c0).ts + 1 := by
  unfold afterPage pageState
  rcases h with h | h
  · simp [h]
  · by_cases hb : ((s.batch_count + 1) % cfg.commitEvery == 0) = true
    · simp [hb, h]
    · simp [Bool.not_eq_true] at hb
      simp [hb]

lemma afterPage_since_commit_fail (cfg : LoopCfg) (s : LoopState) (c0 : Candle)
    (rest : List Candle)
    (hb : ((s.batch_count + 1) % cfg.commitEvery == 0) = true)
    (hc : cfg.commitOk s.commit_attempts = false) :
    (afterPage cfg s c0 rest).since = (List.getLastD rest c0).ts + 1 + 86400000 := by
  unfold afterPage pageState
  simp [hb, hc]

lemma afterPage_committed (cfg : LoopCfg) (s : LoopState) (c0 : Candle) (rest : List Candle) :
    (afterPage cfg s c0 rest).committed = s.committed
      ∨ (afterPage cfg s c0 rest).committed = (afterPage cfg s c0 rest).store := by
  unfold afterPage pageState
  split
  · split
    · right; rfl
    · left; rfl
  · left; rfl

lemma loopStep_fetch_error {cfg : LoopCfg} {s : LoopState} {u : Unit}
    (hf : cfg.fetch s.since = .error u) :
    loopStep cfg s = .cont { s with since := s.since + 86400000 } := by
  unfold loopStep
  rw [hf]

lemma loopStep_empty {cfg : LoopCfg} {s : LoopState}
    (hf : cfg.fetch s.since = .ok []) :
    loopStep cfg s = .brk s := by
  unfold loopStep
  rw [hf]

lemma loopStep_bound {cfg : LoopCfg} {s : LoopState} {c0 : Candle} {rest : List Candle}
    (hf : cfg.fetch s.since = .ok (c0 :: rest))
    (he : endActive cfg.endTs c0.ts = true) :
    loopStep cfg s = .brk s := by
  unfold loopStep
  rw [hf]
  simp [he]

lemma loopStep_page {cfg : LoopCfg} {s : LoopState} {c0 : Candle} {rest : List Candle}
    (hf : cfg.fetch s.since = .ok (c0 :: rest))
    (he : endActive cfg.endTs c0.ts = false) :
    loopStep cfg s = .cont (afterPage cfg s c0 rest) := by
  unfold loopStep
  rw [hf]
  simp [he]

lemma loopStep_brk {cfg : LoopCfg} {s t : LoopState}
    (h : loopStep cfg s = .brk t) : t = s ∧ brkCond cfg s := by
  unfold loopStep at h
  cases hf : cfg.fetch s.since with
  | error u =>
    rw [hf] at h
    simp at h
  | ok cs =>
    cases cs with
    | nil =>
      rw [hf] at h
      simp only [StepResult.brk.injEq] at h
      exact ⟨h.symm, by simp [brkCond, hf]⟩
    | cons c0 rest =>
      rw [hf] at h
      cases he : endActive cfg.endTs c0.ts with
      | true =>
        simp only [he, if_true, StepResult.brk.injEq] at h
        exact ⟨h.symm, by simp [brkCond, hf, he]⟩
      | false =>
        simp [he] at h

lemma loopStep_brk_of_cond {cfg : LoopCfg} {s : LoopState}
    (h : brkCond cfg s) : loopStep cfg s = .brk s := by
  unfold brkCond at h
  cases hf : cfg.fetch s.since with
  | error u => rw [hf] at h; exact absurd h id
  | ok cs =>
    cases cs with
    | nil => exact loopStep_empty hf
    | cons c0 rest =>
      rw [hf] at h
      exact loopStep_bound hf h

lemma loopStep_cont {cfg : LoopCfg} {s t : LoopState}
    (h : loopStep cfg s = .cont t) :
    (∃ u, cfg.fetch s.since = .error u ∧ t = { s with since := s.since + 86400000 }) ∨
    (∃ c0 rest, cfg.fetch s.since = .ok (c0 :: rest) ∧ endActive cfg.endTs c0.ts = false ∧
      t = afterPage cfg s c0 rest) := by
  cases hf : cfg.fetch s.since with
  | error u =>
    rw [loopStep_fetch_error hf] at h
    simp only [StepResult.cont.injEq] at h
    exact Or.inl ⟨u, rfl, h.symm⟩
  | ok cs =>
    cases cs with
    | nil =>
      rw [loopStep_empty hf] at h
      simp at h
    | cons c0 rest =>
      cases he : endActive cfg.endTs c0.ts with
      | true =>
        rw [loopStep_bound hf he] at h
        simp at h
      | false =>
        rw [loopStep_page hf he] at h
        simp only [StepResult.cont.injEq] at h
        exact Or.inr ⟨c0, rest, rfl, he, h.symm⟩

lemma loopStep_cont_store {cfg : LoopCfg} {s t : LoopState}
    (h : loopStep cfg s = .cont t) : ∃ tl, t.store = s.store ++ tl := by
  rcases loopStep_cont h with ⟨u, _, ht⟩ | ⟨c0, rest, _, _, ht⟩
  · exact ⟨[], by rw [ht]; simp⟩
  · rw [ht, afterPage_store]
    exact processCandles_store_append cfg (c0 :: rest) s.store s.all_timestamps 0

/-! ### Lemmas about run completion -/

lemma finishRun_of_true {cfg : LoopCfg} {s : LoopState}
    (hc : cfg.commitOk s.commit_attempts = true) :
    finishRun cfg s = Outcome.ok
      { total_records := s.total_records
        actual_start := listMinD s.all_timestamps cfg.nowMs
        actual_end := listMaxD s.all_timestamps cfg.nowMs
        finalState :=
          { s with commit_attempts := s.commit_attempts + 1, committed := s.store } } := by
  simp [finishRun, hc]

lemma finishRun_of_false {cfg : LoopCfg} {s : LoopState}
    (hc : cfg.commitOk s.commit_attempts = false) :
    finishRun cfg s = Outcome.err s.committed := by
  simp [finishRun, hc]

lemma finishRun_ok {cfg : LoopCfg} {s : LoopState} {r : RunReport}
    (h : finishRun cfg s = .ok r) :
    cfg.commitOk s.commit_attempts = true ∧
    r = { total_records := s.total_records
          actual_start := listMinD s.all_timestamps cfg.nowMs
          actual_end := listMaxD s.all_timestamps cfg.nowMs
          finalState :=
            { s with commit_attempts := s.commit_attempts + 1, committed := s.store } } := by
  cases hc : cfg.commitOk s.commit_attempts with
  | true =>
    rw [finishRun_of_true hc] at h
    simp only [Outcome.ok.injEq] at h
    exact ⟨rfl, h.symm⟩
  | false =>
    rw [finishRun_of_false hc] at h
    simp at h

lemma runLoop_ok_store_append (cfg : LoopCfg) :
    ∀ fuel (s : LoopState) (r : RunReport), runLoop cfg fuel s = .ok r →
      ∃ tl, r.finalState.store = s.store ++ tl := by
  intro fuel
  induction fuel with
  | zero => intro s r h; simp [runLoop] at h
  | succ fuel ih =>
    intro s r h
    rw [runLoop] at h
    cases hstep : loopStep cfg s with
    | cont s2 =>
      rw [hstep] at h
      obtain ⟨tl, htl⟩ := ih s2 r h
      obtain ⟨tl0, h0⟩ := loopStep_cont_store hstep
      exact ⟨tl0 ++ tl, by rw [htl, h0, List.append_assoc]⟩
    | brk s2 =>
      rw [hstep] at h
      obtain ⟨hts, _⟩ := loopStep_brk hstep
      obtain ⟨_, hr⟩ := finishRun_ok (h : finishRun cfg s2 = .ok r)
      subst hts
      exact ⟨[], by rw [hr]; simp⟩

lemma runLoop_ok_minmax (cfg : LoopCfg) :
    ∀ fuel (s : LoopState) (r : RunReport), runLoop cfg fuel s = .ok r →
      r.actual_start = listMinD r.finalState.all_timestamps cfg.nowMs ∧
      r.actual_end = listMaxD r.finalState.all_timestamps cfg.nowMs := by
  intro fuel
  induction fuel with
  | zero => intro s r h; simp [runLoop] at h
  | succ fuel ih =>
    intro s r h
    rw [runLoop] at h
    cases hstep : loopStep cfg s with
    | cont s2 =>
      rw [hstep] at h
      exact ih s2 r h
    | brk s2 =>
      rw [hstep] at h
      obtain ⟨_, hr⟩ := finishRun_ok (h : finishRun cfg s2 = .ok r)
      subst hr
      exact ⟨rfl, rfl⟩

/-! ### Error absorption and provenance across the loop -/

lemma runLoop_no_err (cfg : LoopCfg) (hall : ∀ n, cfg.commitOk n = true) :
    ∀ fuel (s : LoopState), isErr (runLoop cfg fuel s) = false := by
  intro fuel
  induction fuel with
  | zero => intro s; simp [runLoop, isErr]
  | succ fuel ih =>
    intro s
    rw [runLoop]
    cases hstep : loopStep cfg s with
    | cont s2 => exact ih s2
    | brk s2 =>
      show isErr (finishRun cfg s2) = false
      rw [finishRun_of_true (hall s2.commit_attempts)]
      simp [isErr]

lemma runLoop_err_commit (cfg : LoopCfg) :
    ∀ fuel (s : LoopState) (c : List OHLCVRow),
      runLoop cfg fuel s = .err c → ∃ n, cfg.commitOk n = false := by
  intro fuel
  induction fuel with
  | zero => intro s c h; simp [runLoop] at h
  | succ fuel ih =>
    intro s c h
    rw [runLoop] at h
    cases hstep : loopStep cfg s with
    | cont s2 =>
      rw [hstep] at h
      exact ih s2 c h
    | brk s2 =>
      rw [hstep] at h
      cases hc : cfg.commitOk s2.commit_attempts with
      | true =>
        have h2 : finishRun cfg s2 = Outcome.err c := h
        rw [finishRun_of_true hc] at h2
        simp at h2
      | false => exact ⟨s2.commit_attempts, hc⟩

lemma loopStep_cont_prov {cfg : LoopCfg} {e : Int} (hcfg : cfg.endTs = some e)
    (he : e ≠ 0) {s t : LoopState} (h : loopStep cfg s = .cont t) :
    ∀ row ∈ t.store, row ∈ s.store ∨ row.timestamp < e := by
  intro row hrow
  rcases loopStep_cont h with ⟨u, _, ht⟩ | ⟨c0, rest, _, _, ht⟩
  · subst ht; exact Or.inl hrow
  · subst ht
    rw [afterPage_store] at hrow
    exact processCandles_prov cfg e hcfg he (c0 :: rest) s.store s.all_timestamps 0 row hrow

lemma runLoop_prov (cfg : LoopCfg) (e : Int) (hcfg : cfg.endTs = some e) (he : e ≠ 0) :
    ∀ fuel (s : LoopState) (r : RunReport), runLoop cfg fuel s = .ok r →
      ∀ row ∈ r.finalState.store, row ∈ s.store ∨ row.timestamp < e := by
  intro fuel
  induction fuel with
  | zero => intro s r h; simp [runLoop] at h
  | succ fuel ih =>
    intro s r h row
    rw [runLoop] at h
    cases hstep : loopStep cfg s with
    | cont s2 =>
      rw [hstep] at h
      intro hrow
      rcases ih s2 r h row hrow with h2 | h2
      · exact loopStep_cont_prov hcfg he hstep row h2
      · exact Or.inr h2
    | brk s2 =>
      rw [hstep] at h
      obtain ⟨hts, _⟩ := loopStep_brk hstep
      obtain ⟨_, hr⟩ := finishRun_ok (h : finishRun cfg s2 = .ok r)
      subst hts
      rw [hr]
      intro hrow
      exact Or.inl hrow

/-! ### Idempotence coupling -/

lemma afterPage_since_eq (cfg : LoopCfg) (s t : LoopState) (c0 : Candle)
    (rest : List Candle) (hbatch : t.batch_count = s.batch_count)
    (hatt : t.commit_attempts = s.commit_attempts) :
    (afterPage cfg t c0 rest).since = (afterPage cfg s c0 rest).since := by
  by_cases hb : ((s.batch_count + 1) % cfg.commitEvery == 0) = true
  · by_cases hc : cfg.commitOk s.commit_attempts = true
    · simp [afterPage, pageState, hbatch, hatt, hb, hc]
    · simp [afterPage, pageState, hbatch, hatt, hb, hc]
  · simp [afterPage, pageState, hbatch, hatt, hb]

lemma runLoop_idem_aux (cfg : LoopCfg) :
    ∀ fuel (s t : LoopState) (r : RunReport),
      runLoop cfg fuel s = .ok r →
      t.since = s.since → t.batch_count = s.batch_count →
      t.commit_attempts = s.commit_attempts →
      t.store = r.finalState.store →
      ∃ r2, runLoop cfg fuel t = .ok r2 ∧
        r2.finalState.store = r.finalState.store ∧
        r2.total_records = t.total_records := by
  intro fuel
  induction fuel with
  | zero => intro s t r h; simp [runLoop] at h
  | succ fuel ih =>
    intro s t r h hsince hbatch hatt hstore
    cases hf : cfg.fetch s.since with
    | error u =>
      have hft : cfg.fetch t.since = .error u := by rw [hsince]; exact hf
      rw [runLoop, loopStep_fetch_error hf] at h
      obtain ⟨r2, hrun2, h1, h2⟩ :=
        ih { s with since := s.since + 86400000 } { t with since := t.since + 86400000 } r h
          (by simp [hsince]) hbatch hatt hstore
      refine ⟨r2, ?_, h1, h2⟩
      rw [runLoop, loopStep_fetch_error hft]
      exact hrun2
    | ok cs =>
      cases cs with
      | nil =>
        have hft : cfg.fetch t.since = .ok [] := by rw [hsince]; exact hf
        rw [runLoop, loopStep_empty hf] at h
        obtain ⟨hcommit, hr⟩ := finishRun_ok (h : finishRun cfg s = .ok r)
        refine ⟨{ total_records := t.total_records
                  actual_start := listMinD t.all_timestamps cfg.nowMs
                  actual_end := listMaxD t.all_timestamps cfg.nowMs
                  finalState :=
                    { t with commit_attempts := t.commit_attempts + 1,
                             committed := t.store } }, ?_, ?_, rfl⟩
        · rw [runLoop, loopStep_empty hft]
          exact finishRun_of_true (by rw [hatt]; exact hcommit)
        · exact hstore
      | cons c0 rest =>
        have hft : cfg.fetch t.since = .ok (c0 :: rest) := by rw [hsince]; exact hf
        cases he : endActive cfg.endTs c0.ts with
        | true =>
          rw [runLoop, loopStep_bound hf he] at h
          obtain ⟨hcommit, hr⟩ := finishRun_ok (h : finishRun cfg s = .ok r)
          refine ⟨{ total_records := t.total_records
                    actual_start := listMinD t.all_timestamps cfg.nowMs
                    actual_end := listMaxD t.all_timestamps cfg.nowMs
                    finalState :=
                      { t with commit_attempts := t.commit_attempts + 1,
                               committed := t.store } }, ?_, ?_, rfl⟩
          · rw [runLoop, loopStep_bound hft he]
            exact finishRun_of_true (by rw [hatt]; exact hcommit)
          · exact hstore
        | false =>
          rw [runLoop, loopStep_page hf he] at h
          have hkeys : ∀ c ∈ (c0 :: rest).takeWhile (fun c => !endActive cfg.endTs c.ts),
              existsOHLCV r.finalState.store cfg.sid cfg.tf c.ts = true := by
            intro c hc
            obtain ⟨tl, htl⟩ := runLoop_ok_store_append cfg fuel _ r h
            rw [afterPage_store] at htl
            rw [htl]
            exact existsOHLCV_append_left tl
              (processCandles_keys cfg (c0 :: rest) s.store s.all_timestamps 0 c hc)
          have hPt : processCandles cfg (c0 :: rest) t.store t.all_timestamps 0
              = (t.store, t.all_timestamps ++ tsOf cfg (c0 :: rest), 0) := by
            apply processCandles_fixed
            intro c hc
            rw [hstore]
            exact hkeys c hc
          obtain ⟨r2, hrun2, h1, h2⟩ :=
            ih (afterPage cfg s c0 rest) (afterPage cfg t c0 rest) r h
              (afterPage_since_eq cfg s t c0 rest hbatch hatt)
              (by rw [afterPage_batch, afterPage_batch, hbatch])
              (by rw [afterPage_attempts, afterPage_attempts, hbatch, hatt])
              (by rw [afterPage_store, hPt, hstore])
          refine ⟨r2, ?_, h1, ?_⟩
          · rw [runLoop, loopStep_page hft he]
            exact hrun2
          · rw [h2, afterPage_total, hPt]
            rfl

/-! ### Commit counting over the page-per-cursor gateway -/

lemma runLoop_gPages_attempts (k : Nat) (cfg : LoopCfg)
    (hfetch : cfg.fetch = gPages k) (hend : cfg.endTs = none)
    (hcommit : ∀ n, cfg.commitOk n = true) :
    ∀ (m : Nat) (s : LoopState), s.since = (k : Int) - (m : Int) →
      runAttempts (runLoop cfg (m + 1) s)
        = some (s.commit_attempts
            + ((s.batch_count + m) / cfg.commitEvery - s.batch_count / cfg.commitEvery)
            + 1) := by
  intro m
  induction m with
  | zero =>
    intro s hsince
    have hf : cfg.fetch s.since = .ok [] := by
      rw [hfetch, hsince]
      simp [gPages]
    rw [runLoop, loopStep_empty hf]
    show runAttempts (finishRun cfg s) = _
    rw [finishRun_of_true (hcommit s.commit_attempts)]
    simp [runAttempts]
  | succ m ihm =>
    intro s hsince
    have hlt : s.since < (k : Int) := by
      rw [hsince]
      push_cast
      omega
    have hf : cfg.fetch s.since = .ok [pageCandle s.since] := by
      rw [hfetch]
      simp [gPages, hlt]
    have he : endActive cfg.endTs (pageCandle s.since).ts = false := by
      rw [hend]
      rfl
    rw [runLoop, loopStep_page hf he]
    show runAttempts (runLoop cfg (m + 1) (afterPage cfg s (pageCandle s.since) [])) = _
    have hsince2 : (afterPage cfg s (pageCandle s.since) []).since
        = (k : Int) - (m : Int) := by
      rw [afterPage_since_commit_ok cfg s (pageCandle s.since) []
        (Or.inr (hcommit s.commit_attempts))]
      show s.since + 1 = (k : Int) - (m : Int)
      rw [hsince]
      push_cast
      ring
    rw [ihm (afterPage cfg s (pageCandle s.since) []) hsince2]
    rw [afterPage_batch, afterPage_attempts]
    congr 1
    have hm : s.batch_count + (m + 1) = s.batch_count + 1 + m := by omega
    rw [hm]
    by_cases hb : ((s.batch_count + 1) % cfg.commitEvery == 0) = true
    · have hdvd : cfg.commitEvery ∣ (s.batch_count + 1) := by
        rw [Nat.dvd_iff_mod_eq_zero]
        simpa using hb
      have hsd : (s.batch_count + 1) / cfg.commitEvery
          = s.batch_count / cfg.commitEvery + 1 := by
        rw [Nat.succ_div, if_pos hdvd]
      have hmono : (s.batch_count + 1) / cfg.commitEvery
          ≤ (s.batch_count + 1 + m) / cfg.commitEvery :=
        Nat.div_le_div_right (by omega)
      rw [if_pos hb]
      omega
    · have hdvd : ¬ cfg.commitEvery ∣ (s.batch_count + 1) := by
        rw [Nat.dvd_iff_mod_eq_zero]
        simpa using hb
      have hsd : (s.batch_count + 1) / cfg.commitEvery
          = s.batch_count / cfg.commitEvery := by
        rw [Nat.succ_div, if_neg hdvd, Nat.add_zero]
      rw [if_neg hb]
      omega

/-! ### Resolution lemmas and concrete scenario pieces -/

lemma continuous_backfill_resolved {env : BackfillEnv} {symbol : String} {dbs : SymbolRow}
    (tf : TimeFrame) (since0 : Int) (endTs : Option Int) (store0 : List OHLCVRow) (fuel : Nat)
    (hres : _get_db_symbol env.exchanges env.symbols env.exchange_name symbol = some dbs) :
    continuous_backfill_ohlcv env symbol tf since0 endTs store0 fuel
      = runLoop (backfillCfg env dbs tf endTs) fuel (initState since0 store0) := by
  unfold continuous_backfill_ohlcv
  rw [hres]

lemma continuous_backfill_unresolved {env : BackfillEnv} {symbol : String}
    (tf : TimeFrame) (since0 : Int) (endTs : Option Int) (store0 : List OHLCVRow) (fuel : Nat)
    (hres : _get_db_symbol env.exchanges env.symbols env.exchange_name symbol = none) :
    continuous_backfill_ohlcv env symbol tf since0 endTs store0 fuel = .err store0 := by
  unfold continuous_backfill_ohlcv
  rw [hres]

/-- Gateway that always raises. -/
def gFail : Int → Except Unit (List Candle) := fun _ => .error ()

/-- Gateway returning one page `[pageCandle t]` until the cursor passes
`t`, then empty pages. -/
def gSingleAt (t : Int) : Int → Except Unit (List Candle) :=
  fun since => if since ≤ t then .ok [pageCandle t] else .ok []

/-- Environment with a single candle at timestamp `t`. -/
def envSingle (t : Int) : BackfillEnv := { envPages 0 with fetch := gSingleAt t }

/-- Environment with ten one-candle pages whose first commit call raises. -/
def envPeriodicFail : BackfillEnv :=
  { envPages 10 with commitOk := fun n => n != 0 }

/-- Environment whose symbols table is empty, so resolution fails. -/
def envNoSym : BackfillEnv := { envPages 0 with symbols := [] }

/-- Loop parameters with an always-raising gateway. -/
def cfgFail : LoopCfg := backfillCfg { envPages 0 with fetch := gFail } oneSymbol .h1 none

/-- Loop parameters whose every commit call raises. -/
def cfgNoCommit : LoopCfg :=
  { backfillCfg (envPages 0) oneSymbol .h1 none with commitOk := fun _ => false }

/-- Loop parameters with commit interval 2 over five one-candle pages. -/
def cfg52 : LoopCfg :=
  { backfillCfg (envPages 5) oneSymbol .h1 none with commitEvery := 2 }

/-- Loop parameters over a one-page gateway, used as a step-lemma input. -/
def cfgOnePage : LoopCfg := backfillCfg (envPages 1) oneSymbol .h1 none

/-- Loop parameters with an end bound parsed to the falsy timestamp 0. -/
def cfgZeroBound : LoopCfg := backfillCfg (envSingle 5) oneSymbol .h1 (some 0)

/-- An inactive market with short currency names. -/
def inactiveMarket : Market :=
  { symbol := "CCC/DDD", base := "CCC", quote := "DDD", active := false
    info := ⟨none, none, none, none, none, none⟩ }

/-- An active market with short currency names. -/
def activeMarket : Market :=
  { symbol := "AAA/BBB", base := "AAA", quote := "BBB", active := true
    info := ⟨none, none, none, none, none, none⟩ }

lemma getLastD_mem_cons (rest : List Candle) (c0 : Candle) :
    List.getLastD rest c0 ∈ c0 :: rest := by
  induction rest generalizing c0 with
  | nil => exact List.mem_cons_self _ _
  | cons c1 rest ih =>
    rw [List.getLastD_cons]
    exact List.mem_cons_of_mem _ (ih c1)

/-- Shorthand for the row the concrete scenarios stage at timestamp `ts`
(exchange id 0, symbol id 1, timeframe 1h, zero prices). -/
def rowAt (ts : Int) : OHLCVRow :=
  { exchange_id := 0, symbol_id := 1, timeframe := .h1, timestamp := ts
    open_price := 0, high_price := 0, low_price := 0, close_price := 0, volume := 0 }

/-! ### Claim theorems -/

/-- C1: re-running `continuous_backfill_ohlcv` over a range already
covered by a first run stages zero new OHLCV rows (every candle is caught
by the identity lookup and skipped), so the stored candle set after two
runs equals the set after one run: if a first run from `store0` returns
normally with final store `S`, the identical second run started from `S`
returns normally with the same store `S` and `records_written = 0`. -/
theorem C1_backfill_idempotent (env : BackfillEnv) (symbol : String) (tf : TimeFrame)
    (since0 : Int) (endTs : Option Int) (store0 : List OHLCVRow) (fuel : Nat)
    (S : List OHLCVRow)
    (h1 : runStore (continuous_backfill_ohlcv env symbol tf since0 endTs store0 fuel)
        = some S) :
    runStore (continuous_backfill_ohlcv env symbol tf since0 endTs S fuel) = some S ∧
    runTotal (continuous_backfill_ohlcv env symbol tf since0 endTs S fuel) = some 0 := by
  cases hres : _get_db_symbol env.exchanges env.symbols env.exchange_name symbol with
  | none =>
    rw [continuous_backfill_unresolved tf since0 endTs store0 fuel hres] at h1
    simp [runStore] at h1
  | some dbs =>
    rw [continuous_backfill_resolved tf since0 endTs store0 fuel hres] at h1
    cases hout : runLoop (backfillCfg env dbs tf endTs) fuel (initState since0 store0) with
    | ok r =>
      rw [hout] at h1
      simp only [runStore, Option.some.injEq] at h1
      obtain ⟨r2, hrun2, hst, htot⟩ :=
        runLoop_idem_aux (backfillCfg env dbs tf endTs) fuel (initState since0 store0)
          (initState since0 S) r hout rfl rfl rfl h1.symm
      rw [continuous_backfill_resolved tf since0 endTs S fuel hres, hrun2]
      constructor
      · simp only [runStore, Option.some.injEq]
        rw [hst, h1]
      · simp only [runTotal, Option.some.injEq]
        exact htot
    | err c =>
      rw [hout] at h1
      simp [runStore] at h1
    | spin s =>
      rw [hout] at h1
      simp [runStore] at h1

theorem C1_backfill_idempotent_witness :
    runStore (continuous_backfill_ohlcv (envPages 2) "BTC/USDT" .h1 0 none [] 3)
      = some [rowAt 0, rowAt 1] ∧
    (runStore (continuous_backfill_ohlcv (envPages 2) "BTC/USDT" .h1 0 none
        [rowAt 0, rowAt 1] 3) = some [rowAt 0, rowAt 1] ∧
     runTotal (continuous_backfill_ohlcv (envPages 2) "BTC/USDT" .h1 0 none
        [rowAt 0, rowAt 1] 3) = some 0) :=
  ⟨by decide,
   C1_backfill_idempotent (envPages 2) "BTC/USDT" .h1 0 none [] 3 [rowAt 0, rowAt 1]
     (by decide)⟩

/-- C2 (amended: the claim holds for every end bound except the falsy
timestamp 0): with the end bound set to a nonzero `e`, every row in the
final session store of a normally returning run was either already in the
initial store or has timestamp strictly below `e` — no candle with
timestamp at or past the bound is ever staged or stored, because the
per-candle loop stops at the first candle reaching the bound before its
existence check.  (For `e = 0` the Python guard `if end_timestamp and …`
is falsy and the bound is ignored; see the counterexample.) -/
theorem C2_bound_respected (env : BackfillEnv) (symbol : String) (tf : TimeFrame)
    (since0 : Int) (e : Int) (store0 : List OHLCVRow) (fuel : Nat) (S : List OHLCVRow)
    (he : e ≠ 0)
    (h1 : runStore (continuous_backfill_ohlcv env symbol tf since0 (some e) store0 fuel)
        = some S) :
    boundRespected S store0 e = true := by
  cases hres : _get_db_symbol env.exchanges env.symbols env.exchange_name symbol with
  | none =>
    rw [continuous_backfill_unresolved tf since0 (some e) store0 fuel hres] at h1
    simp [runStore] at h1
  | some dbs =>
    rw [continuous_backfill_resolved tf since0 (some e) store0 fuel hres] at h1
    cases hout : runLoop (backfillCfg env dbs tf (some e)) fuel (initState since0 store0) with
    | ok r =>
      rw [hout] at h1
      simp only [runStore, Option.some.injEq] at h1
      subst h1
      have hprov := runLoop_prov (backfillCfg env dbs tf (some e)) e rfl he fuel
        (initState since0 store0) r hout
      simp only [boundRespected, List.all_eq_true, Bool.or_eq_true, decide_eq_true_eq]
      intro row hrow
      exact hprov row hrow
    | err c =>
      rw [hout] at h1
      simp [runStore] at h1
    | spin s =>
      rw [hout] at h1
      simp [runStore] at h1

theorem C2_bound_respected_witness :
    ((3 : Int) ≠ 0 ∧
     runStore (continuous_backfill_ohlcv (envPages 6) "BTC/USDT" .h1 0 (some 3) [] 5)
       = some [rowAt 0, rowAt 1, rowAt 2]) ∧
    boundRespected [rowAt 0, rowAt 1, rowAt 2] [] 3 = true :=
  ⟨⟨by decide, by decide⟩,
   C2_bound_respected (envPages 6) "BTC/USDT" .h1 0 3 [] 5 [rowAt 0, rowAt 1, rowAt 2]
     (by decide) (by decide)⟩

/-- C2 counterexample: a run of `continuous_backfill_ohlcv` with the end
bound set to timestamp 0 (a valid parsed bound — the epoch) stores the
candle with timestamp `5 ≥ 0` and reports one record written: the Python
guard `if end_timestamp and ts >= end_timestamp` treats the bound 0 as
falsy, so the claim's invariant fails for this run with an end bound
set. -/
theorem C2_counterexample_zero_bound :
    runStore (continuous_backfill_ohlcv (envSingle 5) "BTC/USDT" .h1 0 (some 0) [] 3)
      = some [rowAt 5] ∧
    runTotal (continuous_backfill_ohlcv (envSingle 5) "BTC/USDT" .h1 0 (some 0) [] 3)
      = some 1 ∧
    (0 : Int) ≤ (rowAt 5).timestamp ∧
    boundRespected [rowAt 5] [] 0 = false := by
  decide

/-- C3: the backfill cursor is strictly increasing: after a successfully
processed page (fetch succeeded, page nonempty, bound not hit, periodic
commit absent or succeeding) the cursor equals the full page's last candle
timestamp plus 1 ms; a raising fetch advances it by exactly one day
(86400000 ms); and under the precondition that every fetched candle's
timestamp is at least the requested `since`, every continuing iteration
strictly increases the cursor. -/
theorem C3_cursor_strictly_increasing (cfg : LoopCfg) (s : LoopState) :
    (∀ u, cfg.fetch s.since = .error u →
      loopStep cfg s = .cont { s with since := s.since + 86400000 } ∧
      s.since < s.since + 86400000) ∧
    (∀ c0 rest, cfg.fetch s.since = .ok (c0 :: rest) →
      endActive cfg.endTs c0.ts = false →
      (((s.batch_count + 1) % cfg.commitEvery == 0) = false
        ∨ cfg.commitOk s.commit_attempts = true) →
      contSince (loopStep cfg s) = some ((List.getLastD rest c0).ts + 1)) ∧
    ((∀ c0 rest, cfg.fetch s.since = .ok (c0 :: rest) →
        ∀ c ∈ c0 :: rest, s.since ≤ c.ts) →
      ∀ t, loopStep cfg s = .cont t → s.since < t.since) := by
  refine ⟨?_, ?_, ?_⟩
  · intro u hf
    exact ⟨loopStep_fetch_error hf, by omega⟩
  · intro c0 rest hf he hc
    rw [loopStep_page hf he]
    show some (afterPage cfg s c0 rest).since = _
    rw [afterPage_since_commit_ok cfg s c0 rest hc]
  · intro hpre t ht
    rcases loopStep_cont ht with ⟨u, _, ht2⟩ | ⟨c0, rest, hf, he, ht2⟩
    · subst ht2
      show s.since < s.since + 86400000
      omega
    · subst ht2
      have hlast : s.since ≤ (List.getLastD rest c0).ts :=
        hpre c0 rest hf (List.getLastD rest c0) (getLastD_mem_cons rest c0)
      by_cases hb : ((s.batch_count + 1) % cfg.commitEvery == 0) = true
      · by_cases hcm : cfg.commitOk s.commit_attempts = true
        · rw [afterPage_since_commit_ok cfg s c0 rest (Or.inr hcm)]
          omega
        · rw [afterPage_since_commit_fail cfg s c0 rest hb
            (Bool.not_eq_true _ ▸ (by simpa using hcm))]
          omega
      · rw [afterPage_since_commit_ok cfg s c0 rest
          (Or.inl (Bool.not_eq_true _ ▸ (by simpa using hb)))]
        omega

theorem C3_cursor_strictly_increasing_witness :
    (cfgOnePage.fetch (initState 0 []).since = .ok [pageCandle 0] ∧
     endActive cfgOnePage.endTs (pageCandle 0).ts = false ∧
     ((((initState 0 []).batch_count + 1) % cfgOnePage.commitEvery == 0) = false)) ∧
    contSince (loopStep cfgOnePage (initState 0 []))
      = some ((List.getLastD [] (pageCandle 0)).ts + 1) :=
  ⟨⟨rfl, by decide, by decide⟩,
   (C3_cursor_strictly_increasing cfgOnePage (initState 0 [])).2.1 (pageCandle 0) []
     rfl (by decide) (Or.inl (by decide))⟩

/-- C4: exceptions while fetching or processing a page are absorbed: with
every commit call succeeding the run never raises to the caller (for any
gateway behaviour, raising fetches included); any run that does raise can
only do so because some commit call raised (a transient fetch error alone
never reaches the caller); a raising fetch makes the iteration continue
with only the cursor changed, advanced by exactly one day, with the
session's staged rows untouched; and a raising periodic commit likewise
makes the iteration continue, keeping the page's staged rows and the
previously committed rows, with the already-advanced cursor pushed one
further day ahead. -/
theorem C4_page_errors_absorbed (cfg : LoopCfg) :
    ((∀ n, cfg.commitOk n = true) →
      ∀ fuel s, isErr (runLoop cfg fuel s) = false) ∧
    (∀ fuel s c, runLoop cfg fuel s = .err c → ∃ n, cfg.commitOk n = false) ∧
    (∀ s u, cfg.fetch s.since = .error u →
      loopStep cfg s = .cont { s with since := s.since + 86400000 }) ∧
    (∀ s c0 rest, cfg.fetch s.since = .ok (c0 :: rest) →
      endActive cfg.endTs c0.ts = false →
      ((s.batch_count + 1) % cfg.commitEvery == 0) = true →
      cfg.commitOk s.commit_attempts = false →
      loopStep cfg s = .cont { pageState cfg s c0 rest with
        since := (List.getLastD rest c0).ts + 1 + 86400000
        commit_attempts := s.commit_attempts + 1 }) := by
  refine ⟨?_, ?_, ?_, ?_⟩
  · intro hall fuel s
    exact runLoop_no_err cfg hall fuel s
  · intro fuel s c h
    exact runLoop_err_commit cfg fuel s c h
  · intro s u hf
    exact loopStep_fetch_error hf
  · intro s c0 rest hf he hb hc
    rw [loopStep_page hf he]
    unfold afterPage
    rw [if_pos hb, if_neg (by simp [hc])]
    rfl

theorem C4_page_errors_absorbed_witness :
    (cfgFail.fetch (initState 0 []).since = .error () ∧
     isErr (runLoop cfgFail 2 (initState 0 [])) = false) ∧
    loopStep cfgFail (initState 0 [])
      = .cont { initState 0 [] with since := (initState 0 []).since + 86400000 } :=
  ⟨⟨rfl, (C4_page_errors_absorbed cfgFail).1 (fun _ => rfl) 2 (initState 0 [])⟩,
   (C4_page_errors_absorbed cfgFail).2.2.1 (initState 0 []) () rfl⟩

/-- C5 (amended: only the final commit propagates): an error raised by the
store during the final commit — the one after the loop breaks — propagates
to the caller, aborting the run with the rows committed in prior batches
intact; an error raised during a periodic every-10th-batch commit is
instead absorbed by the per-page recovery branch: the iteration continues
with the staged rows and previously committed rows kept and the cursor
pushed one day past its already-advanced position. -/
theorem C5_commit_error_propagation (cfg : LoopCfg) :
    (∀ fuel s, cfg.fetch s.since = .ok [] →
      cfg.commitOk s.commit_attempts = false →
      runLoop cfg (fuel + 1) s = .err s.committed) ∧
    (∀ s c0 rest, cfg.fetch s.since = .ok (c0 :: rest) →
      endActive cfg.endTs c0.ts = false →
      ((s.batch_count + 1) % cfg.commitEvery == 0) = true →
      cfg.commitOk s.commit_attempts = false →
      contState (loopStep cfg s) = some { pageState cfg s c0 rest with
        since := (List.getLastD rest c0).ts + 1 + 86400000
        commit_attempts := s.commit_attempts + 1 }) := by
  constructor
  · intro fuel s hf hc
    rw [runLoop, loopStep_empty hf]
    show finishRun cfg s = _
    exact finishRun_of_false hc
  · intro s c0 rest hf he hb hc
    rw [loopStep_page hf he]
    show some (afterPage cfg s c0 rest) = _
    unfold afterPage
    rw [if_pos hb, if_neg (by simp [hc])]
    rfl

theorem C5_commit_error_propagation_witness :
    (cfgNoCommit.fetch (initState 0 []).since = .ok [] ∧
     cfgNoCommit.commitOk (initState 0 []).commit_attempts = false) ∧
    runLoop cfgNoCommit (0 + 1) (initState 0 []) = .err (initState 0 []).committed :=
  ⟨⟨rfl, rfl⟩,
   (C5_commit_error_propagation cfgNoCommit).1 0 (initState 0 []) rfl rfl⟩

/-- C5 counterexample: a run in which the store raises on the periodic
10th-batch commit (commit call 0 fails, all later calls succeed) still
returns normally to the caller with all 10 records reported and two commit
calls made — the claim that every store error during a commit propagates
up and is never absorbed by the per-page recovery branch is false, since
the periodic commit sits inside the per-page `try`. -/
theorem C5_counterexample_periodic_commit_absorbed :
    envPeriodicFail.commitOk 0 = false ∧
    runTotal (continuous_backfill_ohlcv envPeriodicFail "BTC/USDT" .h1 0 none [] 13)
      = some 10 ∧
    runAttempts (continuous_backfill_ohlcv envPeriodicFail "BTC/USDT" .h1 0 none [] 13)
      = some 2 ∧
    isErr (continuous_backfill_ohlcv envPeriodicFail "BTC/USDT" .h1 0 none [] 13)
      = false := by
  decide

/-- C6: range accuracy: for every normally returning run, the reported
`actual_start` and `actual_end` are the minimum and maximum of
`all_timestamps`, the timestamps observed across the run — `actual_start`
is an observed timestamp bounding all others from below, `actual_end` one
bounding them from above — and when no candle was observed both equal the
wall-clock completion time; moreover each processed page appends to the
observed list the timestamps of its bound-filtered candles independently
of the store contents, so duplicate (unwritten) candles still count. -/
theorem C6_range_accuracy (env : BackfillEnv) (symbol : String) (tf : TimeFrame)
    (since0 : Int) (endTs : Option Int) (store0 : List OHLCVRow) (fuel : Nat)
    (r : RunReport)
    (h1 : runReport (continuous_backfill_ohlcv env symbol tf since0 endTs store0 fuel)
        = some r) :
    r.actual_start = listMinD r.finalState.all_timestamps env.nowMs ∧
    r.actual_end = listMaxD r.finalState.all_timestamps env.nowMs ∧
    minmaxOk r env.nowMs = true ∧
    (∀ (cfg : LoopCfg) (s : LoopState) (c0 : Candle) (rest : List Candle),
      cfg.fetch s.since = .ok (c0 :: rest) →
      endActive cfg.endTs c0.ts = false →
      contState (loopStep cfg s) = some (afterPage cfg s c0 rest) ∧
      (afterPage cfg s c0 rest).all_timestamps
        = s.all_timestamps ++ tsOf cfg (c0 :: rest)) := by
  have hpage : ∀ (cfg : LoopCfg) (s : LoopState) (c0 : Candle) (rest : List Candle),
      cfg.fetch s.since = .ok (c0 :: rest) →
      endActive cfg.endTs c0.ts = false →
      contState (loopStep cfg s) = some (afterPage cfg s c0 rest) ∧
      (afterPage cfg s c0 rest).all_timestamps
        = s.all_timestamps ++ tsOf cfg (c0 :: rest) := by
    intro cfg s c0 rest hf he
    constructor
    · rw [loopStep_page hf he]
      rfl
    · rw [afterPage_obs, processCandles_obs]
  cases hres : _get_db_symbol env.exchanges env.symbols env.exchange_name symbol with
  | none =>
    rw [continuous_backfill_unresolved tf since0 endTs store0 fuel hres] at h1
    simp [runReport] at h1
  | some dbs =>
    rw [continuous_backfill_resolved tf since0 endTs store0 fuel hres] at h1
    cases hout : runLoop (backfillCfg env dbs tf endTs) fuel (initState since0 store0) with
    | ok r0 =>
      rw [hout] at h1
      simp only [runReport, Option.some.injEq] at h1
      subst h1
      obtain ⟨hmin, hmax⟩ :=
        runLoop_ok_minmax (backfillCfg env dbs tf endTs) fuel (initState since0 store0) r0 hout
      refine ⟨hmin, hmax, ?_, hpage⟩
      unfold minmaxOk
      by_cases hobs : r0.finalState.all_timestamps.isEmpty = true
      · rw [if_pos hobs]
        have hnil : r0.finalState.all_timestamps = [] := by
          simpa [List.isEmpty_iff] using hobs
        rw [hmin, hmax, hnil]
        simp [listMinD, listMaxD, backfillCfg]
      · rw [if_neg hobs]
        have hne : r0.finalState.all_timestamps ≠ [] := by
          simpa [List.isEmpty_iff] using hobs
        simp only [Bool.and_eq_true, decide_eq_true_eq, List.all_eq_true]
        refine ⟨⟨⟨?_, ?_⟩, ?_⟩, ?_⟩
        · rw [hmin]
          exact listMinD_mem _ _ hne
        · intro t ht
          rw [hmin]
          exact listMinD_le _ _ t ht
        · rw [hmax]
          exact listMaxD_mem _ _ hne
        · intro t ht
          rw [hmax]
          exact listMaxD_ge _ _ t ht
    | err c =>
      rw [hout] at h1
      simp [runReport] at h1
    | spin s =>
      rw [hout] at h1
      simp [runReport] at h1

theorem C6_range_accuracy_witness :
    runReport (continuous_backfill_ohlcv (envPages 2) "BTC/USDT" .h1 0 none [] 3)
      = some { total_records := 2, actual_start := 0, actual_end := 1
               finalState := { since := 2, store := [rowAt 0, rowAt 1], total_records := 2
                               all_timestamps := [0, 1], batch_count := 2
                               commit_attempts := 1, committed := [rowAt 0, rowAt 1] } } ∧
    minmaxOk { total_records := 2, actual_start := 0, actual_end := 1
               finalState := { since := 2, store := [rowAt 0, rowAt 1], total_records := 2
                               all_timestamps := [0, 1], batch_count := 2
                               commit_attempts := 1, committed := [rowAt 0, rowAt 1] } }
      (envPages 2).nowMs = true :=
  ⟨by decide,
   (C6_range_accuracy (envPages 2) "BTC/USDT" .h1 0 none [] 3 _ (by decide)).2.2.1⟩

/-- C7 (amended: an end bound parsed to the falsy timestamp 0 does not
stop the loop): one iteration of the backfill loop executes `break`
exactly when the fetched page is empty, or the end bound is set to a
nonzero timestamp and the first candle of the page has timestamp at or
past it; in the break case the state is returned untouched — no candle of
that page is staged or counted in the observed range. -/
theorem C7_loop_termination (cfg : LoopCfg) (s : LoopState) :
    (∀ t, loopStep cfg s = .brk t ↔ (t = s ∧ brkCond cfg s)) ∧
    (brkCond cfg s ↔
      cfg.fetch s.since = .ok [] ∨
      (∃ e c0 rest, cfg.endTs = some e ∧ e ≠ 0 ∧
        cfg.fetch s.since = .ok (c0 :: rest) ∧ e ≤ c0.ts)) := by
  constructor
  · intro t
    constructor
    · exact loopStep_brk
    · rintro ⟨rfl, hcond⟩
      exact loopStep_brk_of_cond hcond
  · unfold brkCond
    cases hf : cfg.fetch s.since with
    | error u => simp
    | ok cs =>
      cases cs with
      | nil => simp
      | cons c0 rest =>
        cases hend : cfg.endTs with
        | none => simp [endActive]
        | some e =>
          simp only [endActive, Bool.and_eq_true, bne_iff_ne, decide_eq_true_eq]
          constructor
          · intro h
            exact Or.inr ⟨e, c0, rest, rfl, h.1, rfl, h.2⟩
          · rintro (h | ⟨e2, c02, rest2, he2, hne, hfeq, hle⟩)
            · exact absurd h (by simp)
            · rw [Option.some.injEq] at he2
              rw [Except.ok.injEq, List.cons.injEq] at hfeq
              subst he2
              exact ⟨hne, by rw [hfeq.1]; exact hle⟩

theorem C7_loop_termination_witness :
    loopStep (backfillCfg (envPages 0) oneSymbol .h1 none) (initState 0 [])
      = .brk (initState 0 []) :=
  ((C7_loop_termination (backfillCfg (envPages 0) oneSymbol .h1 none)
      (initState 0 [])).1 (initState 0 [])).mpr ⟨rfl, trivial⟩

/-- C7 counterexample: with the end bound set to timestamp 0 and a fetched
page whose first candle has timestamp `5 ≥ 0`, the claim demands the loop
stop without processing the page; instead the iteration continues and
fully processes it — the resulting state has the candle staged, one record
counted and its timestamp in the observed range. -/
theorem C7_counterexample_zero_bound :
    cfgZeroBound.endTs = some 0 ∧
    cfgZeroBound.fetch (initState 0 []).since = .ok [pageCandle 5] ∧
    (0 : Int) ≤ (pageCandle 5).ts ∧
    contState (loopStep cfgZeroBound (initState 0 []))
      = some { since := 6, store := [rowAt 5], total_records := 1
               all_timestamps := [5], batch_count := 1, commit_attempts := 0
               committed := [] } :=
  ⟨rfl, rfl, by decide, by decide⟩

/-- C8: commit cadence: after each processed page exactly one commit call
happens when the incremented batch counter is a multiple of the commit
interval and none otherwise; over a gateway serving `k` consecutive
one-candle pages (each staging at least one row from an empty store) with
all commits succeeding and no end bound, a full run makes exactly
`k / commitEvery` periodic commit calls plus the one final flush; through
`continuous_backfill_ohlcv`, whose interval is the source's hard-coded 10,
that is `k / 10 + 1` commit calls. -/
theorem C8_commit_batching :
    (∀ (cfg : LoopCfg) (s : LoopState) (c0 : Candle) (rest : List Candle),
      (afterPage cfg s c0 rest).commit_attempts
        = if (s.batch_count + 1) % cfg.commitEvery == 0 then s.commit_attempts + 1
          else s.commit_attempts) ∧
    (∀ (cfg : LoopCfg) (k : Nat), cfg.fetch = gPages k → cfg.endTs = none →
      (∀ n, cfg.commitOk n = true) → ∀ store0 : List OHLCVRow,
      runAttempts (runLoop cfg (k + 1) (initState 0 store0))
        = some (k / cfg.commitEvery + 1)) ∧
    (∀ (k : Nat) (store0 : List OHLCVRow),
      runAttempts (continuous_backfill_ohlcv (envPages k) "BTC/USDT" TimeFrame.h1 0 none
          store0 (k + 1))
        = some (k / 10 + 1)) := by
  have h2 : ∀ (cfg : LoopCfg) (k : Nat), cfg.fetch = gPages k → cfg.endTs = none →
      (∀ n, cfg.commitOk n = true) → ∀ store0 : List OHLCVRow,
      runAttempts (runLoop cfg (k + 1) (initState 0 store0))
        = some (k / cfg.commitEvery + 1) := by
    intro cfg k hf hend hcommit store0
    have h0 : (initState 0 store0).since = (k : Int) - (k : Int) := by
      show (0 : Int) = (k : Int) - (k : Int)
      ring
    have hmain := runLoop_gPages_attempts k cfg hf hend hcommit k (initState 0 store0) h0
    simpa [initState] using hmain
  refine ⟨?_, h2, ?_⟩
  · intro cfg s c0 rest
    exact afterPage_attempts cfg s c0 rest
  · intro k store0
    have hres : _get_db_symbol (envPages k).exchanges (envPages k).symbols
        (envPages k).exchange_name "BTC/USDT" = some oneSymbol := rfl
    rw [continuous_backfill_resolved TimeFrame.h1 0 none store0 (k + 1) hres]
    exact h2 (backfillCfg (envPages k) oneSymbol TimeFrame.h1 none) k rfl rfl
      (fun _ => rfl) store0

theorem C8_commit_batching_witness :
    (cfg52.fetch = gPages 5 ∧ cfg52.endTs = none) ∧
    runAttempts (runLoop cfg52 (5 + 1) (initState 0 [])) = some 3 :=
  ⟨⟨rfl, rfl⟩, C8_commit_batching.2.1 cfg52 5 rfl rfl (fun _ => rfl) []⟩

/-- C9: when the symbol does not resolve to a stored `Symbol` row for the
provider's exchange, `continuous_backfill_ohlcv` raises to the caller with
the store unchanged (`err store0`: the rollback leaves exactly the initial
rows committed), and the outcome is the same for every environment sharing
those tables — no page is ever fetched and nothing depends on the gateway
or commit oracles. -/
theorem C9_resolution_failure_aborts (env : BackfillEnv) (symbol : String) (tf : TimeFrame)
    (since0 : Int) (endTs : Option Int) (store0 : List OHLCVRow) (fuel : Nat)
    (hres : _get_db_symbol env.exchanges env.symbols env.exchange_name symbol = none) :
    continuous_backfill_ohlcv env symbol tf since0 endTs store0 fuel
      = Outcome.err store0 ∧
    (∀ env2 : BackfillEnv, env2.exchanges = env.exchanges → env2.symbols = env.symbols →
      env2.exchange_name = env.exchange_name →
      continuous_backfill_ohlcv env2 symbol tf since0 endTs store0 fuel
        = Outcome.err store0) := by
  constructor
  · exact continuous_backfill_unresolved tf since0 endTs store0 fuel hres
  · intro env2 h1 h2 h3
    apply continuous_backfill_unresolved
    rw [h1, h2, h3]
    exact hres

theorem C9_resolution_failure_aborts_witness :
    _get_db_symbol envNoSym.exchanges envNoSym.symbols envNoSym.exchange_name "BTC/USDT"
      = none ∧
    continuous_backfill_ohlcv envNoSym "BTC/USDT" .h1 0 none [rowAt 7] 5
      = Outcome.err [rowAt 7] :=
  ⟨by decide,
   (C9_resolution_failure_aborts envNoSym "BTC/USDT" .h1 0 none [rowAt 7] 5 (by decide)).1⟩

lemma get_or_create_symbol_long (symbols : List SymbolRow) (freshId exchange_id : Nat)
    (symbol base quote : String) (info : Option SymbolInfo)
    (h : base.length > 10 ∨ quote.length > 10) :
    get_or_create_symbol symbols freshId exchange_id symbol base quote info
      = (none, symbols) := by
  unfold get_or_create_symbol
  rw [if_pos h]

lemma get_or_create_symbol_short (symbols : List SymbolRow) (freshId exchange_id : Nat)
    (symbol base quote : String) (info : Option SymbolInfo)
    (hb : base.length ≤ 10) (hq : quote.length ≤ 10) :
    ∃ row symbols2,
      get_or_create_symbol symbols freshId exchange_id symbol base quote info
        = (some row, symbols2) := by
  unfold get_or_create_symbol
  rw [if_neg (by omega)]
  cases hfind : symbols.find? fun s => decide (s.exchange_id = exchange_id ∧ s.symbol = symbol) with
  | some s => exact ⟨s, symbols, rfl⟩
  | none => exact ⟨_, _, rfl⟩

lemma fetch_and_store_markets_loop_count (exchange_id : Nat) :
    ∀ (markets : List Market) (symbols : List SymbolRow) (count fresh : Nat),
      (fetch_and_store_markets_loop exchange_id markets symbols count fresh).1
        = count + (markets.filter fun m =>
            m.active && decide (m.base.length ≤ 10) && decide (m.quote.length ≤ 10)).length := by
  intro markets
  induction markets with
  | nil =>
    intro symbols count fresh
    simp [fetch_and_store_markets_loop]
  | cons m rest ih =>
    intro symbols count fresh
    cases ha : m.active with
    | false =>
      have hred : fetch_and_store_markets_loop exchange_id (m :: rest) symbols count fresh
          = fetch_and_store_markets_loop exchange_id rest symbols count fresh := by
        rw [fetch_and_store_markets_loop]
        rw [if_neg (by simp [ha])]
      rw [hred, ih symbols count fresh, List.filter_cons,
        if_neg (by simp [ha])]
    | true =>
      by_cases hb : m.base.length ≤ 10
      · by_cases hq : m.quote.length ≤ 10
        · obtain ⟨row, symbols2, hg⟩ :=
            get_or_create_symbol_short symbols fresh exchange_id m.symbol m.base m.quote
              (some m.info) hb hq
          have hred : fetch_and_store_markets_loop exchange_id (m :: rest) symbols count fresh
              = fetch_and_store_markets_loop exchange_id rest symbols2 (count + 1) (fresh + 1) := by
            rw [fetch_and_store_markets_loop]
            rw [if_pos ha, hg]
          rw [hred, ih symbols2 (count + 1) (fresh + 1), List.filter_cons,
            if_pos (by simp [ha, decide_eq_true hb, decide_eq_true hq]),
            List.length_cons]
          omega
        · have hg := get_or_create_symbol_long symbols fresh exchange_id m.symbol m.base m.quote
            (some m.info) (Or.inr (by omega))
          have hred : fetch_and_store_markets_loop exchange_id (m :: rest) symbols count fresh
              = fetch_and_store_markets_loop exchange_id rest symbols count (fresh + 1) := by
            rw [fetch_and_store_markets_loop]
            rw [if_pos ha, hg]
          rw [hred, ih symbols count (fresh + 1), List.filter_cons,
            if_neg (by simp [decide_eq_false hq])]
      · have hg := get_or_create_symbol_long symbols fresh exchange_id m.symbol m.base m.quote
          (some m.info) (Or.inl (by omega))
        have hred : fetch_and_store_markets_loop exchange_id (m :: rest) symbols count fresh
            = fetch_and_store_markets_loop exchange_id rest symbols count (fresh + 1) := by
          rw [fetch_and_store_markets_loop]
          rw [if_pos ha, hg]
        rw [hred, ih symbols count (fresh + 1), List.filter_cons,
          if_neg (by simp [decide_eq_false hb])]

/-- C10 (amended: counted markets are the ACTIVE ones with short currency
names): a market whose base or quote currency string exceeds 10 characters
makes `get_or_create_symbol` return `None` without creating a row; a call
with both strings within 10 characters always finds or creates a row; and
the symbols-processed total returned by `fetch_and_store_markets` counts
exactly the active markets whose base and quote both fit in 10 characters
(inactive markets are skipped and not counted even with short names — see
the counterexample). -/
theorem C10_currency_length_guard :
    (∀ (symbols : List SymbolRow) (freshId exchange_id : Nat)
       (symbol base quote : String) (info : Option SymbolInfo),
      base.length > 10 ∨ quote.length > 10 →
      get_or_create_symbol symbols freshId exchange_id symbol base quote info
        = (none, symbols)) ∧
    (∀ (symbols : List SymbolRow) (freshId exchange_id : Nat)
       (symbol base quote : String) (info : Option SymbolInfo),
      base.length ≤ 10 → quote.length ≤ 10 →
      ∃ row symbols2,
        get_or_create_symbol symbols freshId exchange_id symbol base quote info
          = (some row, symbols2)) ∧
    (∀ (exchanges : List ExchangeRow) (symbols : List SymbolRow) (markets : List Market)
       (name : String) (ty : ExchangeType) (freshE freshS : Nat),
      (fetch_and_store_markets exchanges symbols markets name ty freshE freshS).1
        = (markets.filter fun m =>
            m.active && decide (m.base.length ≤ 10) && decide (m.quote.length ≤ 10)).length) := by
  refine ⟨?_, ?_, ?_⟩
  · intro symbols freshId eid symbol base quote info h
    exact get_or_create_symbol_long symbols freshId eid symbol base quote info h
  · intro symbols freshId eid symbol base quote info hb hq
    exact get_or_create_symbol_short symbols freshId eid symbol base quote info hb hq
  · intro exchanges symbols markets name ty freshE freshS
    show (fetch_and_store_markets_loop (get_or_create_exchange exchanges freshE name ty).1.id
        markets symbols 0 freshS).1 = _
    rw [fetch_and_store_markets_loop_count]
    omega

theorem C10_currency_length_guard_witness :
    ("AAAAAAAAAAAA".length > 10 ∨ "BBB".length > 10) ∧
    get_or_create_symbol [] 5 0 "AAAAAAAAAAAA/BBB" "AAAAAAAAAAAA" "BBB" none = (none, []) ∧
    (fetch_and_store_markets [] [] [activeMarket] "binance" ExchangeType.binance 0 1).1
      = (([activeMarket]).filter fun m =>
          m.active && decide (m.base.length ≤ 10) && decide (m.quote.length ≤ 10)).length :=
  ⟨Or.inl (by decide),
   C10_currency_length_guard.1 [] 5 0 "AAAAAAAAAAAA/BBB" "AAAAAAAAAAAA" "BBB" none
     (Or.inl (by decide)),
   C10_currency_length_guard.2.2 [] [] [activeMarket] "binance" ExchangeType.binance 0 1⟩

/-- C10 counterexample: an inactive market with 3-character currency names
(so not caught by the length guard) is neither counted in the
symbols-processed total of `fetch_and_store_markets` (which returns 0) nor
given a `Symbol` row — the claim's second half, that every market with
short currency names is found or created and counted, is false. -/
theorem C10_counterexample_inactive_market :
    inactiveMarket.base.length ≤ 10 ∧ inactiveMarket.quote.length ≤ 10 ∧
    (fetch_and_store_markets [] [] [inactiveMarket] "binance" ExchangeType.binance 0 1).1
      = 0 ∧
    (fetch_and_store_markets [] [] [inactiveMarket] "binance" ExchangeType.binance 0 1).2.1
      = [] := by
  decide

end AgenticDataScience
